import Mathlib

/-!
# Verification of the RC6 cipher implementation (`src/core/lib/RC6.mjs`)

This file is a shallow embedding, in Lean 4, of the RC6 block-cipher
implementation found in `src/core/lib/RC6.mjs`.  Byte buffers
(`Uint8Array` values) are modelled as `List Nat` whose elements are
below 256; 32-bit words are `Nat` values kept below `2^32` by explicit
`% 2^32` reductions, mirroring the JavaScript `>>> 0` coercions.
Methods that can throw are modelled with `Except String`, carrying the
exact message strings thrown by the source.

Two JavaScript-semantics points are modelled explicitly:

* The source computes `B * (2 * B + 1)` with IEEE-754 double-precision
  numbers.  For `B` close to `2^32` the exact product needs up to 65
  bits, so the product is rounded to 53 bits of precision
  (round-to-nearest, ties-to-even) before the `>>> 0` truncation.
  `roundFloat64` reproduces that rounding with exact integer
  arithmetic; every other arithmetic operation in the source stays
  below `2^53` and is therefore exact in a double.

* In `keyExpansion`, a zero-length key makes `keyWords` empty and
  `c = 0`.  Then `j = (j + 1) % 0` is `NaN` for every step after the
  first, and `keyWords[j]` accesses the object property `"NaN"` of the
  array.  A read of an absent property is `undefined`, which makes the
  mixed value `(undefined + A + B) >>> 0` equal to `0`; the assignment
  `keyWords[NaN] = …`, however, *creates* the `"NaN"` property, which
  later steps read back.  The `j` cursor is therefore modelled as an
  `Option Nat` (`none` standing for `NaN`) and the `"NaN"` property as
  an extra `Option Nat` cell of the mixing state: the first step reads
  the absent index 0 (mixing in zero and storing `0` at index 0, which
  is never read again), the second step reads the absent `"NaN"`
  property (mixing in zero and creating the cell holding `0`), and
  every later step reads and updates that single cell like a one-word
  key.
-/

namespace RC6Spec

/-- `2^32`, the word modulus of the cipher. -/
def w32 : Nat := 2 ^ 32

/-- Constant `P32 = 0xB7E15163` from the source. -/
def P32 : Nat := 0xB7E15163

/-- Constant `Q32 = 0x9E3779B9` from the source. -/
def Q32 : Nat := 0x9E3779B9

/-- `RC6.rotateLeft(value, amount)`:
`amount &= 0x1F; ((value << amount) | (value >>> (32 - amount))) >>> 0`.
JavaScript shift counts are themselves reduced mod 32, hence the
`(32 - m) % 32` in the right-shift count (for `m = 0` the source
shifts by `32 & 31 = 0`). -/
def rotateLeft (value amount : Nat) : Nat :=
  ((value <<< (amount &&& 31)) ||| (value >>> ((32 - (amount &&& 31)) % 32))) % w32

/-- `RC6.rotateRight(value, amount)`:
`amount &= 0x1F; ((value >>> amount) | (value << (32 - amount))) >>> 0`. -/
def rotateRight (value amount : Nat) : Nat :=
  ((value >>> (amount &&& 31)) ||| (value <<< ((32 - (amount &&& 31)) % 32))) % w32

/-- Number of bits of `n`, computed with explicit fuel so that the
definition is structurally recursive. -/
def bitLen : Nat → Nat → Nat
  | 0, _ => 0
  | fuel + 1, n => if n = 0 then 0 else bitLen fuel (n / 2) + 1

/-- Round a natural number to 53 bits of precision, round-to-nearest
with ties-to-even: the rounding a JavaScript engine performs when an
exact integer product does not fit an IEEE-754 double.  All inputs in
this development are below `2^70`, which the fuel of `bitLen` covers. -/
def roundFloat64 (n : Nat) : Nat :=
  if n < 2 ^ 53 then n
  else
    let shift := bitLen 70 n - 53
    let q := n >>> shift
    let r := n % 2 ^ shift
    let half := 2 ^ (shift - 1)
    let q2 := if half < r ∨ (r = half ∧ q % 2 = 1) then q + 1 else q
    q2 <<< shift

/-- The round-function product `(B * (2 * B + 1)) >>> 0` of the source:
an IEEE-754 double multiplication followed by unsigned-32 truncation. -/
def mulRound (b : Nat) : Nat := roundFloat64 (b * (2 * b + 1)) % w32

/-- One little-endian word from at most four bytes
(`word |= bytes[i + j] << (j * 8)`, then `>>> 0`); a missing byte
contributes zero. -/
def word4 (b0 b1 b2 b3 : Nat) : Nat :=
  (((b0 ||| (b1 <<< 8)) ||| (b2 <<< 16)) ||| (b3 <<< 24)) % w32

/-- `RC6.bytesToWords(bytes)`: consecutive 4-byte little-endian groups,
a trailing group shorter than 4 bytes using the available bytes only. -/
def bytesToWords : List Nat → List Nat
  | [] => []
  | [b0] => [word4 b0 0 0 0]
  | [b0, b1] => [word4 b0 b1 0 0]
  | [b0, b1, b2] => [word4 b0 b1 b2 0]
  | b0 :: b1 :: b2 :: b3 :: rest => word4 b0 b1 b2 b3 :: bytesToWords rest

/-- `RC6.wordsToBytes(words)`: each word yields its four little-endian
bytes `(word >>> (j * 8)) & 0xFF`. -/
def wordsToBytes : List Nat → List Nat
  | [] => []
  | w :: ws =>
    (w &&& 255) :: ((w >>> 8) &&& 255) :: ((w >>> 16) &&& 255) ::
      ((w >>> 24) &&& 255) :: wordsToBytes ws

/-- `(x - y) >>> 0` on 32-bit operands: subtraction wrapped to
`[0, 2^32)`. -/
def sub32 (x y : Nat) : Nat := (((x : Int) - (y : Int)) % (2 ^ 32 : Int)).toNat

/-- State of the key-mixing loop of `keyExpansion`: the schedule `S`,
the mutable key-word array (its indexed elements), the accumulators
`A` and `B`, and the two cursors.  `j = none` models the JavaScript
`NaN` produced by `(j + 1) % c` when `c = 0`, and `nanCell` models the
`"NaN"` object property of the array that the assignment
`keyWords[NaN] = …` creates (`none` while the property is absent). -/
structure MixSt where
  S : List Nat
  keyWords : List Nat
  nanCell : Option Nat
  A : Nat
  B : Nat
  i : Nat
  j : Option Nat
deriving DecidableEq

/-- A JavaScript array element assignment `l[i] = v`: an in-range
index is overwritten, and writing at `i = length` appends (the only
out-of-range write the mixing loop can perform — it happens for the
empty key, whose first step writes `keyWords[0]` on an empty array). -/
def jsArrayWrite (l : List Nat) (i v : Nat) : List Nat :=
  if i < l.length then l.set i v else l ++ [v]

/-- One iteration of the key-mixing loop:
`A = S[i] = rotateLeft((S[i] + A + B) >>> 0, 3);`
`B = keyWords[j] = rotateLeft((keyWords[j] + A + B) >>> 0, (A + B) & 0x1F);`
`i = (i + 1) % t; j = (j + 1) % c;`.
When the read `keyWords[j]` is `undefined` (absent index, or the
absent `"NaN"` property when `j` is `NaN`), the mixed value
`(undefined + A + B) >>> 0` is `0` and `rotateLeft(0, _) = 0`, so `B`
and the written cell become `0`; the write itself still creates the
index element or the `"NaN"` property, which later steps read back. -/
def mixStep (t c : Nat) (st : MixSt) : MixSt :=
  let a := rotateLeft ((st.S.getD st.i 0 + st.A + st.B) % w32) 3
  let S2 := st.S.set st.i a
  match st.j with
  | some jv =>
    let j2 : Option Nat := if c = 0 then none else some ((jv + 1) % c)
    match st.keyWords[jv]? with
    | some kw =>
      let b := rotateLeft ((kw + a + st.B) % w32) ((a + st.B) &&& 31)
      { S := S2, keyWords := st.keyWords.set jv b, nanCell := st.nanCell,
        A := a, B := b, i := (st.i + 1) % t, j := j2 }
    | none =>
      { S := S2, keyWords := jsArrayWrite st.keyWords jv 0,
        nanCell := st.nanCell, A := a, B := 0, i := (st.i + 1) % t, j := j2 }
  | none =>
    match st.nanCell with
    | some kw =>
      let b := rotateLeft ((kw + a + st.B) % w32) ((a + st.B) &&& 31)
      { S := S2, keyWords := st.keyWords, nanCell := some b, A := a, B := b,
        i := (st.i + 1) % t, j := none }
    | none =>
      { S := S2, keyWords := st.keyWords, nanCell := some 0, A := a, B := 0,
        i := (st.i + 1) % t, j := none }

/-- Iterate `mixStep` a given number of times. -/
def mixIter (t c : Nat) : Nat → MixSt → MixSt
  | 0, st => st
  | n + 1, st => mixIter t c n (mixStep t c st)

/-- `S[0] = P32; S[i] = (S[i-1] + Q32) >>> 0` as a recurrence. -/
def sInit : Nat → Nat
  | 0 => P32
  | i + 1 => (sInit i + Q32) % w32

/-- `keyExpansion(key)` of the source, with the round count made an
explicit parameter (the source reads it from `this.rounds`). -/
def keyExpansion (rounds : Nat) (key : List Nat) : List Nat :=
  let keyWords := bytesToWords key
  let c := keyWords.length
  let t := 2 * (rounds + 2)
  let S := (List.range t).map sInit
  let v := 3 * max t c
  (mixIter t c v
    { S := S, keyWords := keyWords, nanCell := none, A := 0, B := 0, i := 0,
      j := some 0 }).S

/-- A cipher instance: `this.rounds` and `this.keySchedule`. -/
structure RC6 where
  rounds : Nat
  keySchedule : List Nat
deriving DecidableEq

/-- The default round count of the constructor. -/
def defaultRounds : Nat := 20

/-- `new RC6(key, rounds)`. -/
def RC6.make (key : List Nat) (rounds : Nat) : RC6 :=
  { rounds := rounds, keySchedule := keyExpansion rounds key }

/-- `new RC6(key)` with the default round count. -/
def RC6.makeDefault (key : List Nat) : RC6 := RC6.make key defaultRounds

/-- The four 32-bit words of one block. -/
structure Words4 where
  a : Nat
  b : Nat
  c : Nat
  d : Nat
deriving DecidableEq

/-- `let [A, B, C, D] = RC6.bytesToWords(block)`. -/
def getWords (block : List Nat) : Words4 :=
  let ws := bytesToWords block
  ⟨ws.getD 0 0, ws.getD 1 0, ws.getD 2 0, ws.getD 3 0⟩

/-- One encryption round `i` of `encryptBlock`, including the final
tuple rotation `[A, B, C, D] = [B, C, D, A]`. -/
def encRound (sched : List Nat) (i : Nat) (st : Words4) : Words4 :=
  let t := rotateLeft (mulRound st.b) 5
  let u := rotateLeft (mulRound st.d) 5
  let a2 := (rotateLeft (st.a ^^^ t) (u &&& 31) + sched.getD (2 * i) 0) % w32
  let c2 := (rotateLeft (st.c ^^^ u) (t &&& 31) + sched.getD (2 * i + 1) 0) % w32
  ⟨st.b, c2, st.d, a2⟩

/-- One decryption round `i` of `decryptBlock`, including the initial
tuple rotation `[A, B, C, D] = [D, A, B, C]`. -/
def decRound (sched : List Nat) (i : Nat) (st : Words4) : Words4 :=
  let a := st.d
  let b := st.a
  let c := st.b
  let d := st.c
  let u := rotateLeft (mulRound d) 5
  let t := rotateLeft (mulRound b) 5
  let c2 := rotateRight (sub32 c (sched.getD (2 * i + 1) 0)) (t &&& 31) ^^^ u
  let a2 := rotateRight (sub32 a (sched.getD (2 * i) 0)) (u &&& 31) ^^^ t
  ⟨a2, b, c2, d⟩

/-- The encryption rounds `i, i+1, …, i+n-1`, applied in that order. -/
def encRoundsFrom (sched : List Nat) (i : Nat) : Nat → Words4 → Words4
  | 0, st => st
  | n + 1, st => encRoundsFrom sched (i + 1) n (encRound sched i st)

/-- The decryption rounds `i+n-1, …, i+1, i`, applied in that order
(the source loop runs `for (let i = rounds; i >= 1; i--)`). -/
def decRoundsFrom (sched : List Nat) (i : Nat) : Nat → Words4 → Words4
  | 0, st => st
  | n + 1, st => decRound sched i (decRoundsFrom sched (i + 1) n st)

/-- The body of `encryptBlock` without its length guard (inside the
mode drivers every block passed in has exactly 16 bytes, so the guard
never fires there). -/
def encryptBlockRaw (c : RC6) (block : List Nat) : List Nat :=
  let w := getWords block
  let st0 : Words4 :=
    ⟨w.a, (w.b + c.keySchedule.getD 0 0) % w32, w.c,
      (w.d + c.keySchedule.getD 1 0) % w32⟩
  let st := encRoundsFrom c.keySchedule 1 c.rounds st0
  wordsToBytes [(st.a + c.keySchedule.getD (2 * c.rounds + 2) 0) % w32, st.b,
    (st.c + c.keySchedule.getD (2 * c.rounds + 3) 0) % w32, st.d]

/-- The body of `decryptBlock` without its length guard. -/
def decryptBlockRaw (c : RC6) (block : List Nat) : List Nat :=
  let w := getWords block
  let st1 : Words4 := ⟨sub32 w.a (c.keySchedule.getD (2 * c.rounds + 2) 0), w.b,
    sub32 w.c (c.keySchedule.getD (2 * c.rounds + 3) 0), w.d⟩
  let st := decRoundsFrom c.keySchedule 1 c.rounds st1
  wordsToBytes [st.a, sub32 st.b (c.keySchedule.getD 0 0), st.c,
    sub32 st.d (c.keySchedule.getD 1 0)]

/-- `encryptBlock`, with the 16-byte length guard of the source. -/
def RC6.encryptBlock (c : RC6) (plaintext : List Nat) : Except String (List Nat) :=
  if plaintext.length ≠ 16 then .error "Block size must be 16 bytes"
  else .ok (encryptBlockRaw c plaintext)

/-- `decryptBlock`, with the 16-byte length guard of the source. -/
def RC6.decryptBlock (c : RC6) (ciphertext : List Nat) : Except String (List Nat) :=
  if ciphertext.length ≠ 16 then .error "Block size must be 16 bytes"
  else .ok (decryptBlockRaw c ciphertext)

/-- The padding step shared by `encryptCBC` and `encryptECB`:
`paddedLength = Math.ceil(length / 16) * 16`, and every byte beyond the
input is set to `paddedLength - length`.  (Note that an input whose
length is already a multiple of 16 gets `paddingValue = 0`, i.e. no
padding at all.) -/
def pad (p : List Nat) : List Nat :=
  let paddedLength := (p.length + 15) / 16 * 16
  let paddingValue := paddedLength - p.length
  p ++ List.replicate paddingValue paddingValue

/-- The unpadding step shared by `decryptCBC` and `decryptECB`: read
the last byte; if it lies in `[1, 16]`, drop that many trailing bytes
(`slice(0, length - paddingValue)`), otherwise return the buffer
unchanged.  On an empty buffer the last byte is `undefined`, the
comparison `undefined > 0` is false, and the buffer is returned
unchanged. -/
def unpad (p : List Nat) : List Nat :=
  match p.getLast? with
  | none => p
  | some v => if 0 < v ∧ v ≤ 16 then p.take (p.length - v) else p

/-- `block[j] = x[j] ^ y[j]` over a 16-byte block. -/
def xorBytes (x y : List Nat) : List Nat := List.zipWith (fun a b => a ^^^ b) x y

/-- The block loop of `encryptECB`: encrypt each successive 16-byte
slice.  The input always has a length that is a multiple of 16, so
the catch-all case only ever sees `[]`. -/
def ecbEncRaw (c : RC6) : List Nat → List Nat
  | q0 :: q1 :: q2 :: q3 :: q4 :: q5 :: q6 :: q7 :: q8 :: q9 :: q10 :: q11 ::
      q12 :: q13 :: q14 :: q15 :: rest =>
    encryptBlockRaw c [q0, q1, q2, q3, q4, q5, q6, q7, q8, q9, q10, q11, q12,
      q13, q14, q15] ++ ecbEncRaw c rest
  | _ => []

/-- The block loop of `decryptECB`. -/
def ecbDecRaw (c : RC6) : List Nat → List Nat
  | q0 :: q1 :: q2 :: q3 :: q4 :: q5 :: q6 :: q7 :: q8 :: q9 :: q10 :: q11 ::
      q12 :: q13 :: q14 :: q15 :: rest =>
    decryptBlockRaw c [q0, q1, q2, q3, q4, q5, q6, q7, q8, q9, q10, q11, q12,
      q13, q14, q15] ++ ecbDecRaw c rest
  | _ => []

/-- The block loop of `encryptCBC`: XOR each plaintext block with the
previous ciphertext block (the IV for the first), encrypt, and the
ciphertext block becomes the new previous block. -/
def cbcEncRaw (c : RC6) (prev : List Nat) : List Nat → List Nat
  | q0 :: q1 :: q2 :: q3 :: q4 :: q5 :: q6 :: q7 :: q8 :: q9 :: q10 :: q11 ::
      q12 :: q13 :: q14 :: q15 :: rest =>
    let eb := encryptBlockRaw c (xorBytes [q0, q1, q2, q3, q4, q5, q6, q7, q8,
      q9, q10, q11, q12, q13, q14, q15] prev)
    eb ++ cbcEncRaw c eb rest
  | _ => []

/-- The block loop of `decryptCBC`: decrypt each ciphertext block, XOR
with the previous ciphertext block (the IV for the first); the
ciphertext block becomes the new previous block. -/
def cbcDecRaw (c : RC6) (prev : List Nat) : List Nat → List Nat
  | q0 :: q1 :: q2 :: q3 :: q4 :: q5 :: q6 :: q7 :: q8 :: q9 :: q10 :: q11 ::
      q12 :: q13 :: q14 :: q15 :: rest =>
    xorBytes (decryptBlockRaw c [q0, q1, q2, q3, q4, q5, q6, q7, q8, q9, q10,
      q11, q12, q13, q14, q15]) prev ++
      cbcDecRaw c [q0, q1, q2, q3, q4, q5, q6, q7, q8, q9, q10, q11, q12, q13,
        q14, q15] rest
  | _ => []

/-- `encryptECB(plaintext)`: pad, then encrypt block-wise. -/
def RC6.encryptECB (c : RC6) (plaintext : List Nat) : List Nat :=
  ecbEncRaw c (pad plaintext)

/-- `decryptECB(ciphertext)`: reject lengths that are not a multiple
of 16, decrypt block-wise, then unpad. -/
def RC6.decryptECB (c : RC6) (ciphertext : List Nat) : Except String (List Nat) :=
  if ciphertext.length % 16 ≠ 0 then .error "Ciphertext length must be multiple of 16"
  else .ok (unpad (ecbDecRaw c ciphertext))

/-- `encryptCBC(plaintext, iv)`: reject IVs that are not 16 bytes,
pad, then encrypt with XOR chaining seeded by the IV. -/
def RC6.encryptCBC (c : RC6) (plaintext iv : List Nat) : Except String (List Nat) :=
  if iv.length ≠ 16 then .error "IV must be 16 bytes"
  else .ok (cbcEncRaw c iv (pad plaintext))

/-- `decryptCBC(ciphertext, iv)`: reject IVs that are not 16 bytes and
lengths that are not a multiple of 16, decrypt with XOR chaining, then
unpad. -/
def RC6.decryptCBC (c : RC6) (ciphertext iv : List Nat) : Except String (List Nat) :=
  if iv.length ≠ 16 then .error "IV must be 16 bytes"
  else if ciphertext.length % 16 ≠ 0 then
    .error "Ciphertext length must be multiple of 16"
  else .ok (unpad (cbcDecRaw c iv ciphertext))

/-- Equality of `Except` values is decidable; used to evaluate the
cipher on concrete inputs. -/
instance {ε α : Type} [DecidableEq ε] [DecidableEq α] : DecidableEq (Except ε α) :=
  fun x y =>
  match x, y with
  | .ok a, .ok b =>
    if h : a = b then isTrue (by rw [h]) else isFalse (fun hc => by cases hc; exact h rfl)
  | .error a, .error b =>
    if h : a = b then isTrue (by rw [h]) else isFalse (fun hc => by cases hc; exact h rfl)
  | .ok _, .error _ => isFalse (fun hc => by cases hc)
  | .error _, .ok _ => isFalse (fun hc => by cases hc)

/-! ## Arithmetic facts about the 32-bit word operations -/

lemma land31_eq_mod (x : Nat) : x &&& 31 = x % 32 := by
  have h := Nat.and_pow_two_sub_one_eq_mod x 5
  norm_num at h
  exact h

lemma land255_eq_mod (x : Nat) : x &&& 255 = x % 256 := by
  have h := Nat.and_pow_two_sub_one_eq_mod x 8
  norm_num at h
  exact h

/-- A left-shifted value and a value below the shift amount occupy
disjoint bit ranges, so their bitwise or is their sum. -/
lemma shiftLeft_lor_eq_add {b k : Nat} (a : Nat) (hb : b < 2 ^ k) :
    (a <<< k) ||| b = a * 2 ^ k + b := by
  apply Nat.eq_of_testBit_eq
  intro i
  rw [Nat.testBit_or]
  rcases Nat.lt_or_ge i k with h | h
  · have h1 : Nat.testBit (a <<< k) i = false := by
      simp [Nat.testBit_shiftLeft, Nat.not_le.mpr h]
    have e1 : (a * 2 ^ k + b) % 2 ^ k = b := by
      rw [Nat.mul_comm, Nat.mul_add_mod, Nat.mod_eq_of_lt hb]
    have h3 := Nat.testBit_mod_two_pow (a * 2 ^ k + b) k i
    rw [e1] at h3
    rw [h1, h3]
    simp [h]
  · have h1 : Nat.testBit b i = false :=
      Nat.testBit_lt_two_pow (Nat.lt_of_lt_of_le hb (Nat.pow_le_pow_right (by norm_num) h))
    have e1 : (a * 2 ^ k + b) / 2 ^ k = a := by
      rw [Nat.mul_comm, Nat.mul_add_div (Nat.two_pow_pos k), Nat.div_eq_of_lt hb,
        Nat.add_zero]
    have h3 : Nat.testBit ((a * 2 ^ k + b) >>> k) (i - k) =
        Nat.testBit (a * 2 ^ k + b) (k + (i - k)) := Nat.testBit_shiftRight _
    rw [Nat.shiftRight_eq_div_pow, e1, Nat.add_sub_cancel' h] at h3
    rw [h1, ← h3, Bool.or_false]
    simp [Nat.testBit_shiftLeft, h]

lemma rotateLeft_lt (v a : Nat) : rotateLeft v a < w32 := by
  unfold rotateLeft
  exact Nat.mod_lt _ (by norm_num [w32])

lemma rotateRight_lt (v a : Nat) : rotateRight v a < w32 := by
  unfold rotateRight
  exact Nat.mod_lt _ (by norm_num [w32])

/-- Splitting `2^32` around a rotation amount. -/
lemma two_pow_split {m : Nat} (hm : m ≤ 32) : 2 ^ (32 - m) * 2 ^ m = 2 ^ 32 := by
  rw [← Nat.pow_add]
  congr 1
  omega

/-- Wrapping a split sum around `2^32`. -/
lemma split_mod (q r lo m : Nat) (hr : r < 2 ^ (32 - m)) (hlo : lo < 2 ^ m)
    (hm : m ≤ 32) :
    (q * 2 ^ 32 + (r * 2 ^ m + lo)) % 2 ^ 32 = r * 2 ^ m + lo := by
  have hsum : r * 2 ^ m + lo < 2 ^ 32 := by
    calc r * 2 ^ m + lo < r * 2 ^ m + 2 ^ m := Nat.add_lt_add_left hlo _
      _ = (r + 1) * 2 ^ m := by ring
      _ ≤ 2 ^ (32 - m) * 2 ^ m := Nat.mul_le_mul_right _ (Nat.succ_le_of_lt hr)
      _ = 2 ^ 32 := two_pow_split hm
  rw [Nat.mul_comm q (2 ^ 32), Nat.mul_add_mod, Nat.mod_eq_of_lt hsum]

/-- Closed form of `rotateLeft` on an in-range word. -/
lemma rotateLeft_eq_form (v a : Nat) (hv : v < w32) :
    rotateLeft v a =
      (v % 2 ^ (32 - a % 32)) * 2 ^ (a % 32) + v / 2 ^ (32 - a % 32) := by
  have hv' : v < 2 ^ 32 := hv
  have hmlt : a % 32 < 32 := Nat.mod_lt _ (by norm_num)
  unfold rotateLeft
  rw [land31_eq_mod]
  rcases Nat.eq_zero_or_pos (a % 32) with h0 | hpos
  · rw [h0]
    simp only [Nat.sub_zero, Nat.mod_self, Nat.shiftLeft_zero, Nat.shiftRight_zero,
      Nat.or_self, Nat.pow_zero, Nat.mul_one, w32]
    rw [Nat.mod_eq_of_lt hv', Nat.div_eq_of_lt hv', Nat.add_zero]
  · have h32 : (32 - a % 32) % 32 = 32 - a % 32 := Nat.mod_eq_of_lt (by omega)
    have hlowlt : v / 2 ^ (32 - a % 32) < 2 ^ (a % 32) := by
      apply Nat.div_lt_of_lt_mul
      rw [two_pow_split (Nat.le_of_lt hmlt)]
      exact hv'
    rw [h32, Nat.shiftRight_eq_div_pow, shiftLeft_lor_eq_add v hlowlt]
    have hdecomp : v * 2 ^ (a % 32) + v / 2 ^ (32 - a % 32) =
        v / 2 ^ (32 - a % 32) * 2 ^ 32 +
          ((v % 2 ^ (32 - a % 32)) * 2 ^ (a % 32) + v / 2 ^ (32 - a % 32)) := by
      calc v * 2 ^ (a % 32) + v / 2 ^ (32 - a % 32)
          = (2 ^ (32 - a % 32) * (v / 2 ^ (32 - a % 32)) + v % 2 ^ (32 - a % 32)) *
              2 ^ (a % 32) + v / 2 ^ (32 - a % 32) := by rw [Nat.div_add_mod]
        _ = v / 2 ^ (32 - a % 32) * (2 ^ (32 - a % 32) * 2 ^ (a % 32)) +
              ((v % 2 ^ (32 - a % 32)) * 2 ^ (a % 32) + v / 2 ^ (32 - a % 32)) := by
            ring
        _ = _ := by rw [two_pow_split (Nat.le_of_lt hmlt)]
    show (v * 2 ^ (a % 32) + v / 2 ^ (32 - a % 32)) % w32 = _
    rw [hdecomp]
    exact split_mod _ _ _ _ (Nat.mod_lt _ (Nat.two_pow_pos _)) hlowlt
      (Nat.le_of_lt hmlt)

/-- Closed form of `rotateRight` on an in-range word. -/
lemma rotateRight_eq_form (v a : Nat) (hv : v < w32) :
    rotateRight v a =
      v / 2 ^ (a % 32) + (v % 2 ^ (a % 32)) * 2 ^ (32 - a % 32) := by
  have hv' : v < 2 ^ 32 := hv
  have hmlt : a % 32 < 32 := Nat.mod_lt _ (by norm_num)
  unfold rotateRight
  rw [land31_eq_mod]
  rcases Nat.eq_zero_or_pos (a % 32) with h0 | hpos
  · rw [h0]
    simp only [Nat.sub_zero, Nat.mod_self, Nat.shiftLeft_zero, Nat.shiftRight_zero,
      Nat.or_self, Nat.pow_zero, Nat.div_one, w32]
    rw [Nat.mod_eq_of_lt hv']
    omega
  · have h32 : (32 - a % 32) % 32 = 32 - a % 32 := Nat.mod_eq_of_lt (by omega)
    have hlowlt : v / 2 ^ (a % 32) < 2 ^ (32 - a % 32) := by
      apply Nat.div_lt_of_lt_mul
      rw [Nat.mul_comm (2 ^ (a % 32)), two_pow_split (Nat.le_of_lt hmlt)]
      exact hv'
    have hsub : 32 - (32 - a % 32) = a % 32 := by omega
    rw [h32, Nat.shiftRight_eq_div_pow, Nat.lor_comm]
    rw [shiftLeft_lor_eq_add v hlowlt]
    have hdecomp : v * 2 ^ (32 - a % 32) + v / 2 ^ (a % 32) =
        v / 2 ^ (a % 32) * 2 ^ 32 +
          ((v % 2 ^ (a % 32)) * 2 ^ (32 - a % 32) + v / 2 ^ (a % 32)) := by
      calc v * 2 ^ (32 - a % 32) + v / 2 ^ (a % 32)
          = (2 ^ (a % 32) * (v / 2 ^ (a % 32)) + v % 2 ^ (a % 32)) *
              2 ^ (32 - a % 32) + v / 2 ^ (a % 32) := by rw [Nat.div_add_mod]
        _ = v / 2 ^ (a % 32) * (2 ^ (a % 32) * 2 ^ (32 - a % 32)) +
              ((v % 2 ^ (a % 32)) * 2 ^ (32 - a % 32) + v / 2 ^ (a % 32)) := by
            ring
        _ = _ := by
            rw [Nat.mul_comm (2 ^ (a % 32)) (2 ^ (32 - a % 32)),
              two_pow_split (Nat.le_of_lt hmlt)]
    show (v * 2 ^ (32 - a % 32) + v / 2 ^ (a % 32)) % w32 = _
    rw [hdecomp]
    show (v / 2 ^ (a % 32) * 2 ^ 32 +
      (v % 2 ^ (a % 32) * 2 ^ (32 - a % 32) + v / 2 ^ (a % 32))) % 2 ^ 32 = _
    rw [split_mod (v / 2 ^ (a % 32)) (v % 2 ^ (a % 32)) (v / 2 ^ (a % 32))
      (32 - a % 32) (by rw [hsub]; exact Nat.mod_lt _ (Nat.two_pow_pos _)) hlowlt
      (by omega)]
    omega

/-- Rotating right undoes rotating left by the same amount. -/
lemma rotateRight_rotateLeft (v a : Nat) (hv : v < w32) :
    rotateRight (rotateLeft v a) a = v := by
  have h1 := rotateLeft_eq_form v a hv
  have h2 := rotateRight_eq_form (rotateLeft v a) a (rotateLeft_lt v a)
  have hv' : v < 2 ^ 32 := hv
  have hmlt : a % 32 < 32 := Nat.mod_lt _ (by norm_num)
  have hpow : 2 ^ (32 - a % 32) * 2 ^ (a % 32) = 2 ^ 32 := by
    rw [← Nat.pow_add]
    congr 1
    omega
  have hlowlt : v / 2 ^ (32 - a % 32) < 2 ^ (a % 32) := by
    apply Nat.div_lt_of_lt_mul
    rw [hpow]
    exact hv'
  rw [h2, h1]
  have hm : ((v % 2 ^ (32 - a % 32)) * 2 ^ (a % 32) + v / 2 ^ (32 - a % 32)) %
      2 ^ (a % 32) = v / 2 ^ (32 - a % 32) := by
    rw [Nat.mul_comm, Nat.mul_add_mod, Nat.mod_eq_of_lt hlowlt]
  have hd : ((v % 2 ^ (32 - a % 32)) * 2 ^ (a % 32) + v / 2 ^ (32 - a % 32)) /
      2 ^ (a % 32) = v % 2 ^ (32 - a % 32) := by
    rw [Nat.mul_comm, Nat.mul_add_div (Nat.two_pow_pos _),
      Nat.div_eq_of_lt hlowlt, Nat.add_zero]
  rw [hm, hd, Nat.add_comm, Nat.mul_comm, Nat.div_add_mod]

/-- `(x + s) >>> 0` then `(· - s) >>> 0` recovers an in-range word. -/
lemma sub32_add_cancel (x s : Nat) (hx : x < w32) :
    sub32 ((x + s) % w32) s = x := by
  have hx' : x < 2 ^ 32 := hx
  unfold sub32 w32
  have hcast : (((x + s) % 2 ^ 32 : Nat) : Int) = ((x : Int) + s) % 2 ^ 32 := by
    push_cast
    ring_nf
  rw [hcast]
  omega

lemma xor_lt_w32 {x y : Nat} (hx : x < w32) (hy : y < w32) : x ^^^ y < w32 :=
  Nat.xor_lt_two_pow hx hy

/-! ## The word codec -/

lemma word4_lt (b0 b1 b2 b3 : Nat) : word4 b0 b1 b2 b3 < w32 := by
  unfold word4
  exact Nat.mod_lt _ (by norm_num [w32])

/-- On byte-sized inputs `word4` is plain little-endian recomposition. -/
lemma word4_eq_sum {b0 b1 b2 b3 : Nat} (h0 : b0 < 256) (h1 : b1 < 256)
    (h2 : b2 < 256) (h3 : b3 < 256) :
    word4 b0 b1 b2 b3 = b0 + b1 * 256 + b2 * 65536 + b3 * 16777216 := by
  have e1 : b0 ||| (b1 <<< 8) = b1 * 2 ^ 8 + b0 := by
    rw [Nat.lor_comm]
    exact shiftLeft_lor_eq_add b1 (by omega)
  have e2 : (b1 * 2 ^ 8 + b0) ||| (b2 <<< 16) = b2 * 2 ^ 16 + (b1 * 2 ^ 8 + b0) := by
    rw [Nat.lor_comm]
    exact shiftLeft_lor_eq_add b2 (by omega)
  have e3 : (b2 * 2 ^ 16 + (b1 * 2 ^ 8 + b0)) ||| (b3 <<< 24) =
      b3 * 2 ^ 24 + (b2 * 2 ^ 16 + (b1 * 2 ^ 8 + b0)) := by
    rw [Nat.lor_comm]
    exact shiftLeft_lor_eq_add b3 (by omega)
  unfold word4
  rw [e1, e2, e3]
  rw [Nat.mod_eq_of_lt (by unfold w32; omega)]
  omega

/-- Reassembling the four extracted bytes of an in-range word gives the
word back. -/
lemma word4_of_bytes {u : Nat} (hu : u < w32) :
    word4 (u &&& 255) ((u >>> 8) &&& 255) ((u >>> 16) &&& 255)
      ((u >>> 24) &&& 255) = u := by
  have hu' : u < 2 ^ 32 := hu
  rw [land255_eq_mod, land255_eq_mod, land255_eq_mod, land255_eq_mod,
    Nat.shiftRight_eq_div_pow, Nat.shiftRight_eq_div_pow, Nat.shiftRight_eq_div_pow]
  rw [word4_eq_sum (Nat.mod_lt _ (by norm_num)) (Nat.mod_lt _ (by norm_num))
    (Nat.mod_lt _ (by norm_num)) (Nat.mod_lt _ (by norm_num))]
  omega

lemma word4_byte0 {b0 b1 b2 b3 : Nat} (h0 : b0 < 256) (h1 : b1 < 256)
    (h2 : b2 < 256) (h3 : b3 < 256) : word4 b0 b1 b2 b3 &&& 255 = b0 := by
  rw [word4_eq_sum h0 h1 h2 h3, land255_eq_mod]
  omega

lemma word4_byte1 {b0 b1 b2 b3 : Nat} (h0 : b0 < 256) (h1 : b1 < 256)
    (h2 : b2 < 256) (h3 : b3 < 256) : (word4 b0 b1 b2 b3 >>> 8) &&& 255 = b1 := by
  rw [word4_eq_sum h0 h1 h2 h3, land255_eq_mod, Nat.shiftRight_eq_div_pow]
  omega

lemma word4_byte2 {b0 b1 b2 b3 : Nat} (h0 : b0 < 256) (h1 : b1 < 256)
    (h2 : b2 < 256) (h3 : b3 < 256) : (word4 b0 b1 b2 b3 >>> 16) &&& 255 = b2 := by
  rw [word4_eq_sum h0 h1 h2 h3, land255_eq_mod, Nat.shiftRight_eq_div_pow]
  omega

lemma word4_byte3 {b0 b1 b2 b3 : Nat} (h0 : b0 < 256) (h1 : b1 < 256)
    (h2 : b2 < 256) (h3 : b3 < 256) : (word4 b0 b1 b2 b3 >>> 24) &&& 255 = b3 := by
  rw [word4_eq_sum h0 h1 h2 h3, land255_eq_mod, Nat.shiftRight_eq_div_pow]
  omega

lemma byte_extract_lt (u j : Nat) : (u >>> j) &&& 255 < 256 := by
  rw [land255_eq_mod]
  exact Nat.mod_lt _ (by norm_num)

/-- A list of length 16 is a sixteen-element literal. -/
lemma list_length_sixteen {l : List Nat} (h : l.length = 16) :
    ∃ b0 b1 b2 b3 b4 b5 b6 b7 b8 b9 b10 b11 b12 b13 b14 b15,
      l = [b0, b1, b2, b3, b4, b5, b6, b7, b8, b9, b10, b11, b12, b13, b14, b15] := by
  rcases l with _ | ⟨b0, _ | ⟨b1, _ | ⟨b2, _ | ⟨b3, _ | ⟨b4, _ | ⟨b5, _ | ⟨b6,
    _ | ⟨b7, _ | ⟨b8, _ | ⟨b9, _ | ⟨b10, _ | ⟨b11, _ | ⟨b12, _ | ⟨b13, _ | ⟨b14,
    _ | ⟨b15, rest⟩⟩⟩⟩⟩⟩⟩⟩⟩⟩⟩⟩⟩⟩⟩⟩
  case nil => simp at h
  all_goals simp only [List.length_cons, List.length_nil] at h
  all_goals try omega
  have hrest : rest = [] := List.eq_nil_of_length_eq_zero (by omega)
  subst hrest
  exact ⟨b0, b1, b2, b3, b4, b5, b6, b7, b8, b9, b10, b11, b12, b13, b14, b15, rfl⟩

/-! ## The block transform is invertible -/

/-- All four words of a block state are in range. -/
def Words4.Bounded (st : Words4) : Prop :=
  st.a < w32 ∧ st.b < w32 ∧ st.c < w32 ∧ st.d < w32

lemma w32_pos : 0 < w32 := by norm_num [w32]

lemma encRound_bounded (sched : List Nat) (i : Nat) {st : Words4}
    (h : st.Bounded) : (encRound sched i st).Bounded := by
  obtain ⟨_, hb, _, hd⟩ := h
  exact ⟨hb, Nat.mod_lt _ w32_pos, hd, Nat.mod_lt _ w32_pos⟩

/-- One decryption round undoes one encryption round. -/
lemma decRound_encRound (sched : List Nat) (i : Nat) {st : Words4}
    (h : st.Bounded) : decRound sched i (encRound sched i st) = st := by
  obtain ⟨ha, hb, hc, hd⟩ := h
  cases st with
  | mk A B C D =>
    simp only [encRound, decRound]
    rw [sub32_add_cancel _ _ (rotateLeft_lt _ _),
      sub32_add_cancel _ _ (rotateLeft_lt _ _),
      rotateRight_rotateLeft _ _ (xor_lt_w32 hc (rotateLeft_lt _ _)),
      rotateRight_rotateLeft _ _ (xor_lt_w32 ha (rotateLeft_lt _ _)),
      Nat.xor_cancel_right, Nat.xor_cancel_right]

lemma encRoundsFrom_bounded (sched : List Nat) :
    ∀ (n i : Nat) {st : Words4}, st.Bounded →
      (encRoundsFrom sched i n st).Bounded
  | 0, _, _, h => h
  | n + 1, i, _, h =>
    encRoundsFrom_bounded sched n (i + 1) (encRound_bounded sched i h)

/-- The decryption round loop undoes the encryption round loop. -/
lemma decRoundsFrom_encRoundsFrom (sched : List Nat) :
    ∀ (n i : Nat) {st : Words4}, st.Bounded →
      decRoundsFrom sched i n (encRoundsFrom sched i n st) = st
  | 0, _, _, _ => rfl
  | n + 1, i, st, h => by
    show decRound sched i
      (decRoundsFrom sched (i + 1) n
        (encRoundsFrom sched (i + 1) n (encRound sched i st))) = st
    rw [decRoundsFrom_encRoundsFrom sched n (i + 1) (encRound_bounded sched i h)]
    exact decRound_encRound sched i h

lemma land255_lt (u : Nat) : u &&& 255 < 256 := by
  rw [land255_eq_mod]
  exact Nat.mod_lt _ (by norm_num)

/-- Every byte produced by `wordsToBytes` is below 256. -/
lemma wordsToBytes_lt : ∀ (ws : List Nat), ∀ x ∈ wordsToBytes ws, x < 256
  | [], _, hx => by simp [wordsToBytes] at hx
  | w :: ws, x, hx => by
    simp only [wordsToBytes, List.mem_cons] at hx
    rcases hx with rfl | rfl | rfl | rfl | hx
    · exact land255_lt _
    · exact land255_lt _
    · exact land255_lt _
    · exact land255_lt _
    · exact wordsToBytes_lt ws x hx

lemma getWords_sixteen (b0 b1 b2 b3 b4 b5 b6 b7 b8 b9 b10 b11 b12 b13 b14 b15 : Nat) :
    getWords [b0, b1, b2, b3, b4, b5, b6, b7, b8, b9, b10, b11, b12, b13, b14, b15] =
      ⟨word4 b0 b1 b2 b3, word4 b4 b5 b6 b7, word4 b8 b9 b10 b11,
        word4 b12 b13 b14 b15⟩ := rfl

lemma words4_eta (st : Words4) : (⟨st.a, st.b, st.c, st.d⟩ : Words4) = st := rfl

/-- The bare decryption transform undoes the bare encryption transform
on any 16-byte block, for any schedule and round count. -/
lemma decryptBlockRaw_encryptBlockRaw (c : RC6) {block : List Nat}
    (hlen : block.length = 16) (hby : ∀ x ∈ block, x < 256) :
    decryptBlockRaw c (encryptBlockRaw c block) = block := by
  obtain ⟨b0, b1, b2, b3, b4, b5, b6, b7, b8, b9, b10, b11, b12, b13, b14, b15, rfl⟩ :=
    list_length_sixteen hlen
  have h0 : b0 < 256 := hby _ (by simp)
  have h1 : b1 < 256 := hby _ (by simp)
  have h2 : b2 < 256 := hby _ (by simp)
  have h3 : b3 < 256 := hby _ (by simp)
  have h4 : b4 < 256 := hby _ (by simp)
  have h5 : b5 < 256 := hby _ (by simp)
  have h6 : b6 < 256 := hby _ (by simp)
  have h7 : b7 < 256 := hby _ (by simp)
  have h8 : b8 < 256 := hby _ (by simp)
  have h9 : b9 < 256 := hby _ (by simp)
  have h10 : b10 < 256 := hby _ (by simp)
  have h11 : b11 < 256 := hby _ (by simp)
  have h12 : b12 < 256 := hby _ (by simp)
  have h13 : b13 < 256 := hby _ (by simp)
  have h14 : b14 < 256 := hby _ (by simp)
  have h15 : b15 < 256 := hby _ (by simp)
  have hst0B : (⟨word4 b0 b1 b2 b3,
      (word4 b4 b5 b6 b7 + c.keySchedule.getD 0 0) % w32, word4 b8 b9 b10 b11,
      (word4 b12 b13 b14 b15 + c.keySchedule.getD 1 0) % w32⟩ : Words4).Bounded :=
    ⟨word4_lt _ _ _ _, Nat.mod_lt _ w32_pos, word4_lt _ _ _ _, Nat.mod_lt _ w32_pos⟩
  simp only [encryptBlockRaw, getWords_sixteen]
  set st := encRoundsFrom c.keySchedule 1 c.rounds
    ⟨word4 b0 b1 b2 b3, (word4 b4 b5 b6 b7 + c.keySchedule.getD 0 0) % w32,
      word4 b8 b9 b10 b11,
      (word4 b12 b13 b14 b15 + c.keySchedule.getD 1 0) % w32⟩ with hstdef
  obtain ⟨hsa, hsb, hsc, hsd⟩ := encRoundsFrom_bounded c.keySchedule c.rounds 1 hst0B
  have hkey : decRoundsFrom c.keySchedule 1 c.rounds st =
      ⟨word4 b0 b1 b2 b3, (word4 b4 b5 b6 b7 + c.keySchedule.getD 0 0) % w32,
        word4 b8 b9 b10 b11,
        (word4 b12 b13 b14 b15 + c.keySchedule.getD 1 0) % w32⟩ := by
    rw [hstdef]
    exact decRoundsFrom_encRoundsFrom c.keySchedule c.rounds 1 hst0B
  simp only [wordsToBytes, decryptBlockRaw, getWords_sixteen]
  rw [word4_of_bytes (Nat.mod_lt _ w32_pos), word4_of_bytes hsb,
    word4_of_bytes (Nat.mod_lt _ w32_pos), word4_of_bytes hsd]
  rw [sub32_add_cancel _ _ hsa, sub32_add_cancel _ _ hsc]
  rw [words4_eta, hkey]
  rw [sub32_add_cancel _ _ (word4_lt b4 b5 b6 b7),
    sub32_add_cancel _ _ (word4_lt b12 b13 b14 b15)]
  rw [word4_byte0 h0 h1 h2 h3, word4_byte1 h0 h1 h2 h3, word4_byte2 h0 h1 h2 h3,
    word4_byte3 h0 h1 h2 h3, word4_byte0 h4 h5 h6 h7, word4_byte1 h4 h5 h6 h7,
    word4_byte2 h4 h5 h6 h7, word4_byte3 h4 h5 h6 h7, word4_byte0 h8 h9 h10 h11,
    word4_byte1 h8 h9 h10 h11, word4_byte2 h8 h9 h10 h11, word4_byte3 h8 h9 h10 h11,
    word4_byte0 h12 h13 h14 h15, word4_byte1 h12 h13 h14 h15,
    word4_byte2 h12 h13 h14 h15, word4_byte3 h12 h13 h14 h15]

lemma encryptBlockRaw_length (c : RC6) (block : List Nat) :
    (encryptBlockRaw c block).length = 16 := rfl

lemma decryptBlockRaw_length (c : RC6) (block : List Nat) :
    (decryptBlockRaw c block).length = 16 := rfl

lemma encryptBlockRaw_lt (c : RC6) (block : List Nat) :
    ∀ x ∈ encryptBlockRaw c block, x < 256 := by
  intro x hx
  exact wordsToBytes_lt _ x hx

lemma decryptBlockRaw_lt (c : RC6) (block : List Nat) :
    ∀ x ∈ decryptBlockRaw c block, x < 256 := by
  intro x hx
  exact wordsToBytes_lt _ x hx

/-- C1.  For every key of any positive byte length, every round count
`r ≥ 1`, and every 16-byte block `x` (bytes, i.e. values below 256),
decrypting the encryption of `x` with the schedule derived from that
key and round count returns `x` exactly.  (The proof in fact never
needs the key-length or round-count hypotheses: the inversion holds
for every schedule.) -/
theorem decryptBlock_encryptBlock (key : List Nat) (r : Nat) (x : List Nat)
    (hkey : 0 < key.length) (hr : 1 ≤ r) (hlen : x.length = 16)
    (hbytes : ∀ b ∈ x, b < 256) :
    ((RC6.make key r).encryptBlock x).bind ((RC6.make key r).decryptBlock) =
      Except.ok x := by
  simp only [RC6.encryptBlock, RC6.decryptBlock, hlen, ne_eq,
    not_true_eq_false, if_false, Except.bind, encryptBlockRaw_length,
    not_false_eq_true, if_true]
  rw [decryptBlockRaw_encryptBlockRaw _ hlen hbytes]

/-- Witness for C1 at a concrete key, round count and block. -/
theorem decryptBlock_encryptBlock_witness :
    0 < ([0] : List Nat).length ∧ 1 ≤ 1 ∧
      (List.replicate 16 (0 : Nat)).length = 16 ∧
      (∀ b ∈ List.replicate 16 (0 : Nat), b < 256) ∧
      ((RC6.make [0] 1).encryptBlock (List.replicate 16 0)).bind
          ((RC6.make [0] 1).decryptBlock) =
        Except.ok (List.replicate 16 0) :=
  ⟨by decide, by decide, by decide, by decide,
    decryptBlock_encryptBlock [0] 1 (List.replicate 16 0) (by decide) (by decide)
      (by decide) (by decide)⟩

/-! ## Mode-driver structure lemmas -/

/-- A 16-byte buffer: exactly 16 entries, all byte-sized. -/
def ValidBlock (l : List Nat) : Prop := l.length = 16 ∧ ∀ x ∈ l, x < 256

instance (l : List Nat) : Decidable (ValidBlock l) :=
  decidable_of_iff (l.length = 16 ∧ ∀ x ∈ l, x < 256) Iff.rfl

lemma list_ge_sixteen {l : List Nat} (h : 16 ≤ l.length) :
    ∃ b0 b1 b2 b3 b4 b5 b6 b7 b8 b9 b10 b11 b12 b13 b14 b15 rest,
      l = b0 :: b1 :: b2 :: b3 :: b4 :: b5 :: b6 :: b7 :: b8 :: b9 :: b10 :: b11 ::
        b12 :: b13 :: b14 :: b15 :: rest := by
  rcases l with _ | ⟨b0, _ | ⟨b1, _ | ⟨b2, _ | ⟨b3, _ | ⟨b4, _ | ⟨b5, _ | ⟨b6,
    _ | ⟨b7, _ | ⟨b8, _ | ⟨b9, _ | ⟨b10, _ | ⟨b11, _ | ⟨b12, _ | ⟨b13, _ | ⟨b14,
    _ | ⟨b15, rest⟩⟩⟩⟩⟩⟩⟩⟩⟩⟩⟩⟩⟩⟩⟩⟩
  all_goals simp only [List.length_cons, List.length_nil] at h
  all_goals try omega
  exact ⟨b0, b1, b2, b3, b4, b5, b6, b7, b8, b9, b10, b11, b12, b13, b14, b15,
    rest, rfl⟩

lemma take16_cons (b0 b1 b2 b3 b4 b5 b6 b7 b8 b9 b10 b11 b12 b13 b14 b15 : Nat)
    (rest : List Nat) :
    (b0 :: b1 :: b2 :: b3 :: b4 :: b5 :: b6 :: b7 :: b8 :: b9 :: b10 :: b11 ::
      b12 :: b13 :: b14 :: b15 :: rest).take 16 =
    [b0, b1, b2, b3, b4, b5, b6, b7, b8, b9, b10, b11, b12, b13, b14, b15] := rfl

lemma drop_sixteen_add {x : List Nat} (y : List Nat) (n : Nat) (h : x.length = 16) :
    (x ++ y).drop (16 + n) = y.drop n := by
  rw [← List.drop_drop, List.drop_left' h]

lemma ecbEncRaw_cons16 (c : RC6)
    (b0 b1 b2 b3 b4 b5 b6 b7 b8 b9 b10 b11 b12 b13 b14 b15 : Nat)
    (rest : List Nat) :
    ecbEncRaw c (b0 :: b1 :: b2 :: b3 :: b4 :: b5 :: b6 :: b7 :: b8 :: b9 :: b10 ::
        b11 :: b12 :: b13 :: b14 :: b15 :: rest) =
      encryptBlockRaw c
          [b0, b1, b2, b3, b4, b5, b6, b7, b8, b9, b10, b11, b12, b13, b14, b15] ++
        ecbEncRaw c rest := rfl

/-- The `i`-th 16-byte slice of an ECB-encrypted buffer is the
encryption of the `i`-th 16-byte slice of the input. -/
lemma ecbEncRaw_extract (c : RC6) :
    ∀ (i : Nat) (q : List Nat), 16 * i + 16 ≤ q.length →
      ((ecbEncRaw c q).drop (16 * i)).take 16 =
        encryptBlockRaw c ((q.drop (16 * i)).take 16) := by
  intro i
  induction i with
  | zero =>
    intro q h
    obtain ⟨b0, b1, b2, b3, b4, b5, b6, b7, b8, b9, b10, b11, b12, b13, b14, b15,
      rest, rfl⟩ := list_ge_sixteen (show 16 ≤ q.length by omega)
    rw [ecbEncRaw_cons16]
    simp only [Nat.mul_zero, List.drop_zero]
    rw [List.take_left' (encryptBlockRaw_length c _), take16_cons]
  | succ i ih =>
    intro q h
    obtain ⟨b0, b1, b2, b3, b4, b5, b6, b7, b8, b9, b10, b11, b12, b13, b14, b15,
      rest, rfl⟩ := list_ge_sixteen (show 16 ≤ q.length by omega)
    have h16 : 16 * (i + 1) = 16 + 16 * i := by ring
    have hrest : 16 * i + 16 ≤ rest.length := by
      simp only [List.length_cons] at h
      omega
    rw [ecbEncRaw_cons16, h16,
      drop_sixteen_add _ _ (encryptBlockRaw_length c _), ih rest hrest]
    have hq : (b0 :: b1 :: b2 :: b3 :: b4 :: b5 :: b6 :: b7 :: b8 :: b9 :: b10 ::
        b11 :: b12 :: b13 :: b14 :: b15 :: rest).drop (16 + 16 * i) =
        rest.drop (16 * i) :=
      drop_sixteen_add rest (16 * i)
        (rfl :
          ([b0, b1, b2, b3, b4, b5, b6, b7, b8, b9, b10, b11, b12, b13, b14,
            b15] : List Nat).length = 16)
    rw [hq]

lemma pad_eq_append (p : List Nat) :
    pad p = p ++ List.replicate ((p.length + 15) / 16 * 16 - p.length)
      ((p.length + 15) / 16 * 16 - p.length) := rfl

lemma pad_length (p : List Nat) : (pad p).length = (p.length + 15) / 16 * 16 := by
  rw [pad_eq_append, List.length_append, List.length_replicate]
  omega

lemma length_le_pad_length (p : List Nat) : p.length ≤ (pad p).length := by
  rw [pad_length]
  omega

/-- Inside the original input, padding does not disturb 16-byte slices. -/
lemma pad_slice (p : List Nat) (n : Nat) (h : n + 16 ≤ p.length) :
    ((pad p).drop n).take 16 = (p.drop n).take 16 := by
  rw [pad_eq_append, List.drop_append_eq_append_drop, List.take_append_eq_append_take]
  have h1 : (p.drop n).length = p.length - n := List.length_drop n p
  have h2 : 16 - (p.drop n).length = 0 := by omega
  rw [h2, List.take_zero, List.append_nil]

/-- When the input length is a multiple of 16 the source appends no
padding at all. -/
lemma pad_of_mod_eq_zero {p : List Nat} (h : p.length % 16 = 0) : pad p = p := by
  rw [pad_eq_append]
  have h1 : (p.length + 15) / 16 * 16 - p.length = 0 := by omega
  rw [h1]
  simp

lemma xor_lt_256 {a b : Nat} (ha : a < 256) (hb : b < 256) : a ^^^ b < 256 := by
  have h := @Nat.xor_lt_two_pow a b 8 (by omega) (by omega)
  omega

lemma xorBytes_lt : ∀ (x y : List Nat), (∀ a ∈ x, a < 256) → (∀ b ∈ y, b < 256) →
    ∀ z ∈ xorBytes x y, z < 256
  | [], _, _, _, z, hz => by simp [xorBytes] at hz
  | _ :: _, [], _, _, z, hz => by simp [xorBytes] at hz
  | a :: x, b :: y, hx, hy, z, hz => by
    simp only [xorBytes, List.zipWith_cons_cons, List.mem_cons] at hz
    rcases hz with rfl | hz
    · exact xor_lt_256 (hx a (by simp)) (hy b (by simp))
    · exact xorBytes_lt x y (fun u hu => hx u (by simp [hu]))
        (fun u hu => hy u (by simp [hu])) z hz

lemma xorBytes_valid {x y : List Nat} (hx : ValidBlock x) (hy : ValidBlock y) :
    ValidBlock (xorBytes x y) := by
  constructor
  · rw [xorBytes, List.length_zipWith, hx.1, hy.1]
    omega
  · exact xorBytes_lt x y hx.2 hy.2

lemma xorBytes_left_inj : ∀ (p x y : List Nat), x.length = p.length →
    y.length = p.length → xorBytes x p = xorBytes y p → x = y
  | [], x, y, hx, hy, _ => by
    rw [List.eq_nil_of_length_eq_zero hx, List.eq_nil_of_length_eq_zero hy]
  | p0 :: p, x, y, hx, hy, h => by
    rcases x with _ | ⟨x0, x⟩
    · simp at hx
    rcases y with _ | ⟨y0, y⟩
    · simp at hy
    simp only [xorBytes, List.zipWith_cons_cons, List.cons.injEq] at h ⊢
    refine ⟨Nat.xor_left_inj.mp h.1, ?_⟩
    exact xorBytes_left_inj p x y (by simpa using hx) (by simpa using hy) h.2

lemma xorBytes_right_inj : ∀ (p x y : List Nat), x.length = p.length →
    y.length = p.length → xorBytes p x = xorBytes p y → x = y
  | [], x, y, hx, hy, _ => by
    rw [List.eq_nil_of_length_eq_zero hx, List.eq_nil_of_length_eq_zero hy]
  | p0 :: p, x, y, hx, hy, h => by
    rcases x with _ | ⟨x0, x⟩
    · simp at hx
    rcases y with _ | ⟨y0, y⟩
    · simp at hy
    simp only [xorBytes, List.zipWith_cons_cons, List.cons.injEq] at h ⊢
    refine ⟨Nat.xor_right_inj.mp h.1, ?_⟩
    exact xorBytes_right_inj p x y (by simpa using hx) (by simpa using hy) h.2

lemma encryptBlockRaw_valid (c : RC6) (block : List Nat) :
    ValidBlock (encryptBlockRaw c block) :=
  ⟨encryptBlockRaw_length c block, encryptBlockRaw_lt c block⟩

/-- The bare block encryption is injective on valid 16-byte blocks
(it has a left inverse there). -/
lemma encryptBlockRaw_inj (c : RC6) {x y : List Nat} (hx : ValidBlock x)
    (hy : ValidBlock y) (h : encryptBlockRaw c x = encryptBlockRaw c y) :
    x = y := by
  have hdec := congrArg (decryptBlockRaw c) h
  rwa [decryptBlockRaw_encryptBlockRaw c hx.1 hx.2,
    decryptBlockRaw_encryptBlockRaw c hy.1 hy.2] at hdec

lemma take_all_16 {x : List Nat} (h : x.length = 16) : x.take 16 = x := by
  rw [← h, List.take_length]

lemma cbcEncRaw_cons16 (c : RC6) (prev : List Nat)
    (b0 b1 b2 b3 b4 b5 b6 b7 b8 b9 b10 b11 b12 b13 b14 b15 : Nat)
    (rest : List Nat) :
    cbcEncRaw c prev (b0 :: b1 :: b2 :: b3 :: b4 :: b5 :: b6 :: b7 :: b8 :: b9 ::
        b10 :: b11 :: b12 :: b13 :: b14 :: b15 :: rest) =
      encryptBlockRaw c
          (xorBytes
            [b0, b1, b2, b3, b4, b5, b6, b7, b8, b9, b10, b11, b12, b13, b14, b15]
            prev) ++
        cbcEncRaw c
          (encryptBlockRaw c
            (xorBytes
              [b0, b1, b2, b3, b4, b5, b6, b7, b8, b9, b10, b11, b12, b13, b14, b15]
              prev))
          rest := rfl

/-- Two-block CBC encryption, unfolded. -/
lemma cbcEncRaw_two (c : RC6) (iv b z : List Nat) (hb : b.length = 16)
    (hz : z.length = 16) :
    cbcEncRaw c iv (b ++ z) =
      encryptBlockRaw c (xorBytes b iv) ++
        encryptBlockRaw c
          (xorBytes z (encryptBlockRaw c (xorBytes b iv))) := by
  obtain ⟨b0, b1, b2, b3, b4, b5, b6, b7, b8, b9, b10, b11, b12, b13, b14, b15,
    rfl⟩ := list_length_sixteen hb
  obtain ⟨z0, z1, z2, z3, z4, z5, z6, z7, z8, z9, z10, z11, z12, z13, z14, z15,
    rfl⟩ := list_length_sixteen hz
  rfl

/-- In CBC, identical plaintext blocks after distinct one-block
prefixes (same key, same IV) encrypt to different ciphertext blocks. -/
lemma cbc_second_block_ne (c : RC6) {iv b1 b2 z : List Nat}
    (hiv : ValidBlock iv) (h1 : ValidBlock b1) (h2 : ValidBlock b2)
    (hz : ValidBlock z) (hne : b1 ≠ b2) :
    ((cbcEncRaw c iv (b1 ++ z)).drop 16).take 16 ≠
      ((cbcEncRaw c iv (b2 ++ z)).drop 16).take 16 := by
  rw [cbcEncRaw_two c iv b1 z h1.1 hz.1, cbcEncRaw_two c iv b2 z h2.1 hz.1,
    List.drop_left' (encryptBlockRaw_length c _),
    List.drop_left' (encryptBlockRaw_length c _),
    take_all_16 (encryptBlockRaw_length c _),
    take_all_16 (encryptBlockRaw_length c _)]
  intro heq
  apply hne
  have hxz1 : ValidBlock (xorBytes z (encryptBlockRaw c (xorBytes b1 iv))) :=
    xorBytes_valid hz (encryptBlockRaw_valid c _)
  have hxz2 : ValidBlock (xorBytes z (encryptBlockRaw c (xorBytes b2 iv))) :=
    xorBytes_valid hz (encryptBlockRaw_valid c _)
  have h3 := encryptBlockRaw_inj c hxz1 hxz2 heq
  have h4 := xorBytes_right_inj z _ _
    (by rw [encryptBlockRaw_length, hz.1])
    (by rw [encryptBlockRaw_length, hz.1]) h3
  have h5 := encryptBlockRaw_inj c (xorBytes_valid h1 hiv) (xorBytes_valid h2 hiv) h4
  exact xorBytes_left_inj iv b1 b2 (h1.1.trans hiv.1.symm) (h2.1.trans hiv.1.symm) h5

/-! ## Key expansion: word count, empty keys and schedule length -/

/-- Modelled from the spec: the claimed key word count
`c = max(1, ceil(len(keyBytes)/4))`.  The source has no such lower
bound: it uses `keyWords.length`, which is `0` for an empty key. -/
def specKeyWordCount (key : List Nat) : Nat := max 1 ((key.length + 3) / 4)

lemma bytesToWords_length : ∀ bs : List Nat,
    (bytesToWords bs).length = (bs.length + 3) / 4
  | [] => rfl
  | [_] => by simp [bytesToWords]
  | [_, _] => by simp [bytesToWords]
  | [_, _, _] => by simp [bytesToWords]
  | _ :: _ :: _ :: _ :: rest => by
    simp only [bytesToWords, List.length_cons, bytesToWords_length rest]
    omega

/-- State of the empty-key mixing dynamics once the `j` cursor has
become `NaN`: the schedule, the single `"NaN"` cell of the key-word
array (`none` while the property is absent), the accumulators and the
schedule cursor.  The key-word array itself is irrelevant from then
on: its indexed elements are never read again. -/
structure CellSt where
  S : List Nat
  cell : Option Nat
  A : Nat
  B : Nat
  i : Nat
deriving DecidableEq

/-- One mixing step of the empty-key dynamics: a read of the absent
`"NaN"` property mixes in zero and creates the cell holding `0`; once
the cell exists it behaves exactly like a one-word key. -/
def cellMixStep (t : Nat) (st : CellSt) : CellSt :=
  let a := rotateLeft ((st.S.getD st.i 0 + st.A + st.B) % w32) 3
  match st.cell with
  | some kw =>
    let b := rotateLeft ((kw + a + st.B) % w32) ((a + st.B) &&& 31)
    { S := st.S.set st.i a, cell := some b, A := a, B := b,
      i := (st.i + 1) % t }
  | none =>
    { S := st.S.set st.i a, cell := some 0, A := a, B := 0,
      i := (st.i + 1) % t }

def cellIter (t : Nat) : Nat → CellSt → CellSt
  | 0, st => st
  | n + 1, st => cellIter t n (cellMixStep t st)

/-- The schedule the source derives from a zero-length key: the first
step reads the absent index 0 (mixing in zero; the `0` it stores at
index 0 is never read again), and all `3*t - 1` remaining steps run
the `"NaN"`-cell dynamics starting with the property absent. -/
def emptyKeyExpansion (rounds : Nat) : List Nat :=
  (cellIter (2 * (rounds + 2)) (3 * (2 * (rounds + 2)) - 1)
    { S := ((List.range (2 * (rounds + 2))).map sInit).set 0
        (rotateLeft ((((List.range (2 * (rounds + 2))).map sInit).getD 0 0 + 0 + 0)
          % w32) 3),
      cell := none,
      A := rotateLeft ((((List.range (2 * (rounds + 2))).map sInit).getD 0 0 + 0 + 0)
        % w32) 3,
      B := 0, i := 1 % (2 * (rounds + 2)) }).S

/-- Forget the parts of the mixing state that the `j = NaN` dynamics
never reads. -/
def toCell (st : MixSt) : CellSt :=
  { S := st.S, cell := st.nanCell, A := st.A, B := st.B, i := st.i }

/-- Once `j` is `NaN`, a mixing step is exactly a `"NaN"`-cell step
(the indexed key words are neither read nor written). -/
lemma mixStep_none (t c : Nat) {st : MixSt} (hj : st.j = none) :
    toCell (mixStep t c st) = cellMixStep t (toCell st) ∧
      (mixStep t c st).j = none := by
  unfold mixStep cellMixStep toCell
  rw [hj]
  cases st.nanCell <;> simp

lemma mixIter_none (t c : Nat) :
    ∀ (n : Nat) {st : MixSt}, st.j = none →
      toCell (mixIter t c n st) = cellIter t n (toCell st)
  | 0, _, _ => rfl
  | n + 1, st, hj => by
    show toCell (mixIter t c n (mixStep t c st)) =
      cellIter t n (cellMixStep t (toCell st))
    have h := mixStep_none t c hj
    rw [← h.1]
    exact mixIter_none t c n h.2

lemma mixStep_S_length (t c : Nat) (st : MixSt) :
    (mixStep t c st).S.length = st.S.length := by
  unfold mixStep
  cases st.j with
  | none => cases st.nanCell <;> simp [List.length_set]
  | some jv =>
    rcases hk : st.keyWords[jv]? with _ | kw <;> simp [hk, List.length_set]

lemma mixIter_S_length (t c : Nat) :
    ∀ (n : Nat) (st : MixSt), (mixIter t c n st).S.length = st.S.length
  | 0, _ => rfl
  | n + 1, st => by
    show (mixIter t c n (mixStep t c st)).S.length = _
    rw [mixIter_S_length t c n, mixStep_S_length]

/-- The derived schedule always has `2 * (rounds + 2)` words. -/
lemma keyExpansion_length (rounds : Nat) (key : List Nat) :
    (keyExpansion rounds key).length = 2 * (rounds + 2) := by
  unfold keyExpansion
  rw [mixIter_S_length]
  simp

/-! ## Method-call embeddings

The JavaScript methods receive `this` and their array arguments by
reference and could in principle mutate them.  The faithful embedding
of each method therefore threads those objects through and returns
them next to the result; since the source never assigns to
`this.rounds`, `this.keySchedule`, or any element of an argument
array, the embedded methods return them untouched. -/

def RC6.encryptBlockM (c : RC6) (pt : List Nat) :
    Except String (List Nat) × RC6 × List Nat := (c.encryptBlock pt, c, pt)

def RC6.decryptBlockM (c : RC6) (ct : List Nat) :
    Except String (List Nat) × RC6 × List Nat := (c.decryptBlock ct, c, ct)

def RC6.encryptECBM (c : RC6) (pt : List Nat) :
    List Nat × RC6 × List Nat := (c.encryptECB pt, c, pt)

def RC6.decryptECBM (c : RC6) (ct : List Nat) :
    Except String (List Nat) × RC6 × List Nat := (c.decryptECB ct, c, ct)

def RC6.encryptCBCM (c : RC6) (pt iv : List Nat) :
    Except String (List Nat) × RC6 × List Nat × List Nat :=
  (c.encryptCBC pt iv, c, pt, iv)

def RC6.decryptCBCM (c : RC6) (ct iv : List Nat) :
    Except String (List Nat) × RC6 × List Nat × List Nat :=
  (c.decryptCBC ct iv, c, ct, iv)

/-- Extract the payload of a successful call (empty list on error);
used only to state concrete evaluations compactly. -/
def okD (e : Except String (List Nat)) : List Nat :=
  match e with
  | .ok l => l
  | .error _ => []

set_option maxRecDepth 1000000

/-! ## The claims -/

/-- C2.  The claimed mode round-trip `decrypt(encrypt(p)) = p` fails on
the code for block-aligned plaintexts: with the 16-byte key
`00 01 … 0f` and the default round count, the 16-byte plaintext of
sixteen `0x01` bytes comes back one byte short from both ECB and CBC
(encryption appends no padding to an aligned input, and decryption then
strips the last byte of genuine plaintext as if it were padding). -/
theorem mode_roundTrip_fails_on_aligned_input :
    (RC6.makeDefault
          [0, 1, 2, 3, 4, 5, 6, 7, 8, 9, 10, 11, 12, 13, 14, 15]).decryptECB
        ((RC6.makeDefault
            [0, 1, 2, 3, 4, 5, 6, 7, 8, 9, 10, 11, 12, 13, 14, 15]).encryptECB
          (List.replicate 16 1)) =
      Except.ok (List.replicate 15 1) ∧
    ((RC6.makeDefault
          [0, 1, 2, 3, 4, 5, 6, 7, 8, 9, 10, 11, 12, 13, 14, 15]).encryptCBC
        (List.replicate 16 1) (List.replicate 16 0)).bind
      (fun ct =>
        (RC6.makeDefault
            [0, 1, 2, 3, 4, 5, 6, 7, 8, 9, 10, 11, 12, 13, 14, 15]).decryptCBC ct
          (List.replicate 16 0)) =
      Except.ok (List.replicate 15 1) := by
  constructor
  · decide
  · decide

/-- C3.  The padding step does not follow the claimed PKCS#7 rule
`n = 16 - (len mod 16) ∈ [1,16]`: on a block-aligned input it appends
nothing at all (`paddingValue = 0`), so the padded length of a 16-byte
input is 16, not 32, and the padded length of an empty input is 0. -/
theorem pad_skips_aligned_input :
    pad (List.replicate 16 0) = List.replicate 16 0 ∧
    (pad (List.replicate 16 0)).length = 16 ∧
    pad ([] : List Nat) = [] := by
  refine ⟨by decide, by decide, by decide⟩

/-- C4.  With the 16-byte key `00 01 … 0f` and the default round
count, ECB-encrypting the 13 ASCII bytes of `"Hello, World!"` produces
the ciphertext `8c70b5eac2518728f7e3bf5842d080b5`, and ECB-decrypting
that ciphertext reproduces the original 13 plaintext bytes. -/
theorem ecb_known_answer_test :
    (RC6.makeDefault
          [0x00, 0x01, 0x02, 0x03, 0x04, 0x05, 0x06, 0x07, 0x08, 0x09, 0x0a,
            0x0b, 0x0c, 0x0d, 0x0e, 0x0f]).encryptECB
        [72, 101, 108, 108, 111, 44, 32, 87, 111, 114, 108, 100, 33] =
      [0x8c, 0x70, 0xb5, 0xea, 0xc2, 0x51, 0x87, 0x28, 0xf7, 0xe3, 0xbf, 0x58,
        0x42, 0xd0, 0x80, 0xb5] ∧
    (RC6.makeDefault
          [0x00, 0x01, 0x02, 0x03, 0x04, 0x05, 0x06, 0x07, 0x08, 0x09, 0x0a,
            0x0b, 0x0c, 0x0d, 0x0e, 0x0f]).decryptECB
        [0x8c, 0x70, 0xb5, 0xea, 0xc2, 0x51, 0x87, 0x28, 0xf7, 0xe3, 0xbf, 0x58,
          0x42, 0xd0, 0x80, 0xb5] =
      Except.ok [72, 101, 108, 108, 111, 44, 32, 87, 111, 114, 108, 100, 33] := by
  constructor
  · decide
  · decide

/-- C5 counterexample.  A zero-length ciphertext is *not* rejected:
both decrypt modes accept it and return an empty output (0 is a
multiple of 16 for the source's check). -/
theorem decrypt_accepts_zero_length :
    (RC6.make [0] 1).decryptECB [] = Except.ok [] ∧
    (RC6.make [0] 1).decryptCBC [] (List.replicate 16 0) = Except.ok [] := by
  refine ⟨by decide, by decide⟩

/-- C5 (amended).  `decryptECB` and `decryptCBC` (the latter given a
16-byte IV) fail with the invalid-input-length error exactly when the
ciphertext length is not a multiple of 16 — zero length included as
accepted — and on such failure produce no output; on every length that
is a multiple of 16 they succeed. -/
theorem decrypt_length_check (c : RC6) (ct iv : List Nat) (hiv : iv.length = 16) :
    (c.decryptECB ct = Except.error "Ciphertext length must be multiple of 16" ↔
      ct.length % 16 ≠ 0) ∧
    (c.decryptCBC ct iv =
        Except.error "Ciphertext length must be multiple of 16" ↔
      ct.length % 16 ≠ 0) ∧
    (ct.length % 16 = 0 →
      c.decryptECB ct = Except.ok (unpad (ecbDecRaw c ct)) ∧
      c.decryptCBC ct iv = Except.ok (unpad (cbcDecRaw c iv ct))) := by
  by_cases h : ct.length % 16 = 0 <;>
    simp [RC6.decryptECB, RC6.decryptCBC, hiv, h]

/-- Witness for C5's amended statement at concrete inputs. -/
theorem decrypt_length_check_witness :
    (List.replicate 16 (0 : Nat)).length = 16 ∧
    (((RC6.make [0] 1).decryptECB [1] =
          Except.error "Ciphertext length must be multiple of 16" ↔
        ([1] : List Nat).length % 16 ≠ 0) ∧
      ((RC6.make [0] 1).decryptCBC [1] (List.replicate 16 0) =
          Except.error "Ciphertext length must be multiple of 16" ↔
        ([1] : List Nat).length % 16 ≠ 0) ∧
      (([1] : List Nat).length % 16 = 0 →
        (RC6.make [0] 1).decryptECB [1] =
          Except.ok (unpad (ecbDecRaw (RC6.make [0] 1) [1])) ∧
        (RC6.make [0] 1).decryptCBC [1] (List.replicate 16 0) =
          Except.ok
            (unpad (cbcDecRaw (RC6.make [0] 1) (List.replicate 16 0) [1])))) :=
  ⟨by decide, decrypt_length_check (RC6.make [0] 1) [1] (List.replicate 16 0)
    (by decide)⟩

/-- C6.  The unpadding step reads only the final byte `v`: when
`1 ≤ v ≤ 16` it drops exactly the last `v` bytes without validating
the other trailing bytes, otherwise it returns the buffer unchanged;
and whenever the length check passes, both decrypt modes succeed — so
malformed padding never raises an error. -/
theorem unpad_last_byte_only :
    (∀ (p : List Nat) (v : Nat), p.getLast? = some v → 1 ≤ v → v ≤ 16 →
      unpad p = p.take (p.length - v)) ∧
    (∀ (p : List Nat) (v : Nat), p.getLast? = some v → ¬(1 ≤ v ∧ v ≤ 16) →
      unpad p = p) ∧
    (∀ (c : RC6) (ct : List Nat), ct.length % 16 = 0 →
      c.decryptECB ct = Except.ok (unpad (ecbDecRaw c ct))) ∧
    (∀ (c : RC6) (ct iv : List Nat), iv.length = 16 → ct.length % 16 = 0 →
      c.decryptCBC ct iv = Except.ok (unpad (cbcDecRaw c iv ct))) := by
  refine ⟨?_, ?_, ?_, ?_⟩
  · intro p v hl h1 h16
    unfold unpad
    rw [hl]
    show (if 0 < v ∧ v ≤ 16 then List.take (p.length - v) p else p) =
      List.take (p.length - v) p
    rw [if_pos (show 0 < v ∧ v ≤ 16 from ⟨h1, h16⟩)]
  · intro p v hl hno
    unfold unpad
    rw [hl]
    simp only [ite_eq_right_iff]
    intro hyes
    exact absurd ⟨hyes.1, hyes.2⟩ hno
  · intro c ct h
    simp [RC6.decryptECB, h]
  · intro c ct iv hiv h
    simp [RC6.decryptCBC, hiv, h]

/-- Witness for C6 at concrete buffers. -/
theorem unpad_last_byte_only_witness :
    unpad [9, 9, 2] = ([9, 9, 2] : List Nat).take (([9, 9, 2] : List Nat).length - 2) ∧
    unpad [5, 200] = [5, 200] ∧
    (RC6.make [0] 1).decryptECB [] =
      Except.ok (unpad (ecbDecRaw (RC6.make [0] 1) [])) ∧
    (RC6.make [0] 1).decryptCBC [] (List.replicate 16 0) =
      Except.ok (unpad (cbcDecRaw (RC6.make [0] 1) (List.replicate 16 0) [])) :=
  ⟨unpad_last_byte_only.1 [9, 9, 2] 2 (by decide) (by decide) (by decide),
    unpad_last_byte_only.2.1 [5, 200] 200 (by decide) (by decide),
    unpad_last_byte_only.2.2.1 (RC6.make [0] 1) [] (by decide),
    unpad_last_byte_only.2.2.2 (RC6.make [0] 1) [] (List.replicate 16 0)
      (by decide) (by decide)⟩

/-- C7 counterexample.  The key word count has no `max(1, ·)` lower
bound: an empty key yields zero key words, not one, and the schedule
derived from the empty key (whose mixing loop reads `undefined` twice
and then cycles through the `"NaN"` array property it created)
differs from the schedule obtained by running the mixing loop over a
single zero-valued key word — which is exactly what the one-byte key
`[0]` provides, since `bytesToWords [0] = [0]`. -/
theorem keyExpansion_empty_key_counterexample :
    (bytesToWords []).length ≠ specKeyWordCount [] ∧
    bytesToWords [0] = [0] ∧
    keyExpansion 1 [] ≠ keyExpansion 1 [0] := by
  refine ⟨by decide, by decide, by decide⟩

/-- C7 (amended).  Key expansion uses `c = ceil(len(keyBytes)/4)` key
words with no lower bound; a zero-length key is deterministic and
raises no error, but the mixing loop then runs the `"NaN"`-cell
dynamics of `emptyKeyExpansion`: the first two steps read `undefined`
and mix in zero (the second creating the `"NaN"` property holding
`0`), and every later step reads back and updates that single cell
like a one-word key — which still differs from mixing a single
zero-valued key word from the start. -/
theorem keyExpansion_word_count :
    (∀ key : List Nat, (bytesToWords key).length = (key.length + 3) / 4) ∧
    (∀ r : Nat, keyExpansion r [] = emptyKeyExpansion r) := by
  constructor
  · exact bytesToWords_length
  · intro r
    have hsplit : 3 * (2 * (r + 2)) = (3 * (2 * (r + 2)) - 1) + 1 := by omega
    have hj : (mixStep (2 * (r + 2)) 0
        { S := (List.range (2 * (r + 2))).map sInit, keyWords := [],
          nanCell := none, A := 0, B := 0, i := 0, j := some 0 }).j = none := rfl
    calc keyExpansion r []
        = (mixIter (2 * (r + 2)) 0 (3 * (2 * (r + 2)))
            { S := (List.range (2 * (r + 2))).map sInit, keyWords := [],
              nanCell := none, A := 0, B := 0, i := 0, j := some 0 }).S := by
          simp [keyExpansion, bytesToWords]
      _ = (mixIter (2 * (r + 2)) 0 ((3 * (2 * (r + 2)) - 1) + 1)
            { S := (List.range (2 * (r + 2))).map sInit, keyWords := [],
              nanCell := none, A := 0, B := 0, i := 0, j := some 0 }).S := by
          rw [← hsplit]
      _ = (toCell (mixIter (2 * (r + 2)) 0 (3 * (2 * (r + 2)) - 1)
            (mixStep (2 * (r + 2)) 0
              { S := (List.range (2 * (r + 2))).map sInit, keyWords := [],
                nanCell := none, A := 0, B := 0, i := 0, j := some 0 }))).S := rfl
      _ = (cellIter (2 * (r + 2)) (3 * (2 * (r + 2)) - 1)
            (toCell (mixStep (2 * (r + 2)) 0
              { S := (List.range (2 * (r + 2))).map sInit, keyWords := [],
                nanCell := none, A := 0, B := 0, i := 0, j := some 0 }))).S := by
          rw [mixIter_none (2 * (r + 2)) 0 (3 * (2 * (r + 2)) - 1) hj]
      _ = emptyKeyExpansion r := rfl

/-- C8.  For every key and round count, the schedule built at
construction has exactly `2*(r+2)` words, and no method call changes
the cipher instance (its round count and key schedule pass through
every embedded method untouched). -/
theorem keySchedule_length_and_immutable (key : List Nat) (r : Nat) (hr : 1 ≤ r)
    (pt ct iv : List Nat) :
    (RC6.make key r).keySchedule.length = 2 * (r + 2) ∧
    ((RC6.make key r).encryptBlockM pt).2.1 = RC6.make key r ∧
    ((RC6.make key r).decryptBlockM ct).2.1 = RC6.make key r ∧
    ((RC6.make key r).encryptECBM pt).2.1 = RC6.make key r ∧
    ((RC6.make key r).decryptECBM ct).2.1 = RC6.make key r ∧
    ((RC6.make key r).encryptCBCM pt iv).2.1 = RC6.make key r ∧
    ((RC6.make key r).decryptCBCM ct iv).2.1 = RC6.make key r :=
  ⟨keyExpansion_length r key, rfl, rfl, rfl, rfl, rfl, rfl⟩

/-- Witness for C8 at a concrete key, round count and buffers. -/
theorem keySchedule_length_and_immutable_witness :
    1 ≤ 1 ∧
    ((RC6.make [0] 1).keySchedule.length = 2 * (1 + 2) ∧
      ((RC6.make [0] 1).encryptBlockM []).2.1 = RC6.make [0] 1 ∧
      ((RC6.make [0] 1).decryptBlockM []).2.1 = RC6.make [0] 1 ∧
      ((RC6.make [0] 1).encryptECBM []).2.1 = RC6.make [0] 1 ∧
      ((RC6.make [0] 1).decryptECBM []).2.1 = RC6.make [0] 1 ∧
      ((RC6.make [0] 1).encryptCBCM [] []).2.1 = RC6.make [0] 1 ∧
      ((RC6.make [0] 1).decryptCBCM [] []).2.1 = RC6.make [0] 1) :=
  ⟨by decide, keySchedule_length_and_immutable [0] 1 (by decide) [] [] []⟩

/-- C9 counterexample.  Under CBC (key `[0]`, one round, zero IV), the
one-block buffer of zeros and the crafted two-block prefix
`[1 × 16] ++ E([1 × 16] ⊕ IV)` are different prefixes followed by the
identical block of sixteen `7`s — yet the ciphertext blocks produced
at those positions are identical, because both prefixes chain to the
same previous ciphertext block. -/
theorem cbc_identical_blocks_counterexample :
    (List.replicate 16 0 ++ List.replicate 16 7 : List Nat).take 16 ≠
      ((List.replicate 16 1 ++
          encryptBlockRaw (RC6.make [0] 1)
            (xorBytes (List.replicate 16 1) (List.replicate 16 0))) ++
        List.replicate 16 7).take 32 ∧
    ((List.replicate 16 0 ++ List.replicate 16 7 : List Nat).drop 16).take 16 =
      (((List.replicate 16 1 ++
            encryptBlockRaw (RC6.make [0] 1)
              (xorBytes (List.replicate 16 1) (List.replicate 16 0))) ++
          List.replicate 16 7).drop 32).take 16 ∧
    ((okD ((RC6.make [0] 1).encryptCBC
          (List.replicate 16 0 ++ List.replicate 16 7)
          (List.replicate 16 0))).drop 16).take 16 =
      ((okD ((RC6.make [0] 1).encryptCBC
            ((List.replicate 16 1 ++
                encryptBlockRaw (RC6.make [0] 1)
                  (xorBytes (List.replicate 16 1) (List.replicate 16 0))) ++
              List.replicate 16 7)
            (List.replicate 16 0))).drop 32).take 16 := by
  refine ⟨by decide, by decide, by decide⟩

/-- C9 (amended).  Under ECB, identical 16-byte plaintext blocks at any
two block-aligned positions of the same buffer encrypt to identical
ciphertext blocks.  Under CBC the diffusion guarantee holds for
distinct *one-block* prefixes: the identical following block then
encrypts to different ciphertext blocks (longer distinct prefixes can
collide on the chaining block, as the counterexample shows). -/
theorem ecb_cbc_block_pattern :
    (∀ (c : RC6) (p : List Nat) (i j : Nat), 16 * i + 16 ≤ p.length →
      16 * j + 16 ≤ p.length →
      (p.drop (16 * i)).take 16 = (p.drop (16 * j)).take 16 →
      ((c.encryptECB p).drop (16 * i)).take 16 =
        ((c.encryptECB p).drop (16 * j)).take 16) ∧
    (∀ (c : RC6) (iv b1 b2 z ct1 ct2 : List Nat), ValidBlock iv →
      ValidBlock b1 → ValidBlock b2 → ValidBlock z → b1 ≠ b2 →
      c.encryptCBC (b1 ++ z) iv = Except.ok ct1 →
      c.encryptCBC (b2 ++ z) iv = Except.ok ct2 →
      (ct1.drop 16).take 16 ≠ (ct2.drop 16).take 16) := by
  constructor
  · intro c p i j hi hj hblocks
    show ((ecbEncRaw c (pad p)).drop (16 * i)).take 16 =
      ((ecbEncRaw c (pad p)).drop (16 * j)).take 16
    rw [ecbEncRaw_extract c i (pad p) (le_trans hi (length_le_pad_length p)),
      ecbEncRaw_extract c j (pad p) (le_trans hj (length_le_pad_length p)),
      pad_slice p (16 * i) hi, pad_slice p (16 * j) hj, hblocks]
  · intro c iv b1 b2 z ct1 ct2 hiv h1 h2 hz hne henc1 henc2
    have hlen1 : (b1 ++ z).length % 16 = 0 := by
      rw [List.length_append, h1.1, hz.1]
    have hlen2 : (b2 ++ z).length % 16 = 0 := by
      rw [List.length_append, h2.1, hz.1]
    rw [RC6.encryptCBC, if_neg (by rw [hiv.1]; exact fun hc => hc rfl),
      pad_of_mod_eq_zero hlen1] at henc1
    rw [RC6.encryptCBC, if_neg (by rw [hiv.1]; exact fun hc => hc rfl),
      pad_of_mod_eq_zero hlen2] at henc2
    cases henc1
    cases henc2
    exact cbc_second_block_ne c hiv h1 h2 hz hne

/-- Witness for C9's amended statement: both parts at concrete inputs. -/
theorem ecb_cbc_block_pattern_witness :
    ((RC6.make [0] 1).encryptECB (List.replicate 32 5)).take 16 =
      (((RC6.make [0] 1).encryptECB (List.replicate 32 5)).drop 16).take 16 ∧
    ¬((okD ((RC6.make [0] 1).encryptCBC
          (List.replicate 16 1 ++ List.replicate 16 3)
          (List.replicate 16 0))).drop 16).take 16 =
      ((okD ((RC6.make [0] 1).encryptCBC
            (List.replicate 16 2 ++ List.replicate 16 3)
            (List.replicate 16 0))).drop 16).take 16 := by
  constructor
  · have h := ecb_cbc_block_pattern.1 (RC6.make [0] 1) (List.replicate 32 5) 0 1
      (by decide) (by decide) (by decide)
    simpa using h
  · have h := ecb_cbc_block_pattern.2 (RC6.make [0] 1) (List.replicate 16 0)
      (List.replicate 16 1) (List.replicate 16 2) (List.replicate 16 3)
      (okD ((RC6.make [0] 1).encryptCBC
        (List.replicate 16 1 ++ List.replicate 16 3) (List.replicate 16 0)))
      (okD ((RC6.make [0] 1).encryptCBC
        (List.replicate 16 2 ++ List.replicate 16 3) (List.replicate 16 0)))
      (by decide) (by decide) (by decide) (by decide) (by decide)
      (by decide) (by decide)
    exact h

/-- C10.  None of the six public operations modifies its input
buffers: in the state-passing embedding of each method, the plaintext,
ciphertext and IV arguments come back exactly as they went in. -/
theorem method_args_unmodified (c : RC6) (x iv : List Nat) :
    (c.encryptBlockM x).2.2 = x ∧
    (c.decryptBlockM x).2.2 = x ∧
    (c.encryptECBM x).2.2 = x ∧
    (c.decryptECBM x).2.2 = x ∧
    (c.encryptCBCM x iv).2.2.1 = x ∧
    (c.encryptCBCM x iv).2.2.2 = iv ∧
    (c.decryptCBCM x iv).2.2.1 = x ∧
    (c.decryptCBCM x iv).2.2.2 = iv :=
  ⟨rfl, rfl, rfl, rfl, rfl, rfl, rfl, rfl⟩

end RC6Spec
